import Mathlib

/-!
Shallow embedding of the nm-file-secret-agent core (secret resolution and
agent protocol) from its Rust sources:

- src/config.rs : MappingEntry, AgentConfig.find_matching_secrets
- src/mapping.rs : Secret, get_secret, encode_generic_secrets, encode_wireguard_secrets
- src/dbus.rs : verify_access, the four method handlers registered in run,
  the NameOwnerChanged signal handler installed by register_signals

File systems are modelled as functions from a path to an optional content
string (none meaning the file cannot be read); Rust HashMap values are
modelled as association lists whose insert replaces an existing binding in
place and otherwise appends, which fixes one deterministic refinement of
the unordered iteration of the Rust maps.
-/

namespace NmFileSecretAgent

/-- One configured rule, from the MappingEntry struct in src/config.rs. -/
structure MappingEntry where
  match_id : Option String
  match_uuid : Option String
  match_type : Option String
  match_iface : Option String
  match_setting : Option String
  key : String
  file : String
deriving Repr, DecidableEq

/-- The loaded configuration, from the AgentConfig struct in src/config.rs. -/
structure AgentConfig where
  entries : List MappingEntry
deriving Repr, DecidableEq

/-- The filter predicate of AgentConfig.find_matching_secrets in
src/config.rs (lines 62 to 102), written with the same early-return
structure: a populated match field that disagrees rejects the entry, and the
match_iface comparison only runs when the request carries an interface
name. -/
def matchesEntry (conn_id conn_uuid conn_type : String) (iface_name : Option String)
    (setting_name : String) (entry : MappingEntry) : Bool :=
  if entry.match_id.any (fun val => val != conn_id) then false
  else if entry.match_uuid.any (fun val => val != conn_uuid) then false
  else if entry.match_type.any (fun val => val != conn_type) then false
  else if (match iface_name with
           | some iface => entry.match_iface.any (fun val => val != iface)
           | none => false) then false
  else if entry.match_setting.any (fun val => val != setting_name) then false
  else true

/-- AgentConfig.find_matching_secrets from src/config.rs: filter the entry
list, keeping insertion order. -/
def find_matching_secrets (config : AgentConfig) (conn_id conn_uuid conn_type : String)
    (iface_name : Option String) (setting_name : String) : List MappingEntry :=
  config.entries.filter (matchesEntry conn_id conn_uuid conn_type iface_name setting_name)

/-- The four-field-only matching predicate that claim C2 describes, written
from the words of the spec: every populated field among match_id,
match_uuid, match_type and match_setting must equal the corresponding
request field, an unset field always passes, and match_iface is
deliberately not consulted. -/
def specMatchesFourFields (conn_id conn_uuid conn_type : String)
    (setting_name : String) (entry : MappingEntry) : Bool :=
  entry.match_id.all (fun v => v == conn_id) &&
  entry.match_uuid.all (fun v => v == conn_uuid) &&
  entry.match_type.all (fun v => v == conn_type) &&
  entry.match_setting.all (fun v => v == setting_name)

/-- Declarative reading of the matching rule actually implemented: the four
plain fields must agree whenever populated, and match_iface must agree
whenever it is populated AND the request carries an interface name. -/
def specMatches (conn_id conn_uuid conn_type : String) (iface_name : Option String)
    (setting_name : String) (entry : MappingEntry) : Bool :=
  specMatchesFourFields conn_id conn_uuid conn_type setting_name entry &&
  (match iface_name, entry.match_iface with
   | some iface, some v => v == iface
   | _, _ => true)

/-- The entry with every match field unset. -/
def allUnsetEntry (key file : String) : MappingEntry :=
  { match_id := none, match_uuid := none, match_type := none,
    match_iface := none, match_setting := none, key := key, file := file }

/-! ## File system and secret reading (src/config.rs MappingEntry.read) -/

/-- The file system as seen by MappingEntry.read: a path either yields the
content of the file or cannot be read at all. -/
abbrev FileSystem : Type := String → Option String

/-- A plain key/value secret, from the Secret struct in src/mapping.rs. -/
structure Secret where
  key : String
  value : String
deriving Repr, DecidableEq

/-- The collect step of get_secret in src/mapping.rs (lines 91 to 96): read
each matched entry in order, aborting with the offending file path at the
first source that cannot be read (TryFrom for Secret wraps
MappingEntry.read). -/
def read_secrets (fs : FileSystem) : List MappingEntry → Except String (List Secret)
  | [] => Except.ok []
  | entry :: rest =>
    match fs entry.file with
    | none => Except.error entry.file
    | some value =>
      match read_secrets fs rest with
      | Except.error e => Except.error e
      | Except.ok secrets => Except.ok ({ key := entry.key, value := value } :: secrets)

/-! ## Association-list maps standing in for the Rust HashMaps -/

/-- HashMap lookup: the value bound to a key, if any. -/
def getAL {α : Type} (k : String) : List (String × α) → Option α
  | [] => none
  | (k0, v) :: rest => if k0 == k then some v else getAL k rest

/-- HashMap insert: replace an existing binding in place, else append. -/
def upsert {α : Type} (k : String) (v : α) : List (String × α) → List (String × α)
  | [] => [(k, v)]
  | (k0, v0) :: rest => if k0 == k then (k, v) :: rest else (k0, v0) :: upsert k v rest

/-- HashSet insert: append the element unless it is already present. -/
def setInsert (x : String) (s : List String) : List String :=
  if x ∈ s then s else s ++ [x]

/-- HashSet remove: drop every occurrence of the element. -/
def setRemove (x : String) (s : List String) : List String :=
  s.filter (fun y => y != x)

/-! ## D-Bus values and the connection profile (src/mapping.rs get_secret) -/

/-- A variant argument arriving from D-Bus, as far as get_secret inspects
it: either a string (as_str succeeds) or anything else (as_str fails). -/
inductive DBusValue where
  | str : String → DBusValue
  | nonStr : DBusValue
deriving Repr, DecidableEq

/-- The as_str method of the dbus crate RefArg trait. -/
def DBusValue.as_str : DBusValue → Option String
  | DBusValue.str s => some s
  | DBusValue.nonStr => none

/-- One section of an incoming connection profile (a Rust PropMap). -/
abbrev PropMapIn : Type := List (String × DBusValue)

/-- An incoming NestedSettingsMap (section name to section map). -/
abbrev NestedProfile : Type := List (String × PropMapIn)

/-- The errors get_secret can produce, one per distinct anyhow context in
src/mapping.rs. -/
inductive GetSecretError where
  | malformedRequest : String → GetSecretError
  | unsupportedFlag : GetSecretError
  | sourceUnreadable : String → GetSecretError
deriving Repr, DecidableEq

/-- Outcome of a fallible computation that may also panic: in the Rust
source, indexing a HashMap at an absent key panics the thread instead of
returning an error. -/
inductive Res (α : Type) where
  | ok : α → Res α
  | err : GetSecretError → Res α
  | panic : Res α
deriving Repr, DecidableEq

/-- True exactly on the err constructor. -/
def Res.isErr {α : Type} : Res α → Bool
  | Res.err _ => true
  | _ => false

/-- The connection fields extracted by get_secret before matching. -/
structure ConnFields where
  conn_id : String
  conn_uuid : String
  conn_type : String
  iface_name : Option String
deriving Repr, DecidableEq

/-- The extraction prologue of get_secret in src/mapping.rs (lines 52 to
70). Rust index expressions connection_profile["connection"] and
["id"] / ["uuid"] / ["type"] panic when the key is absent; as_str failing on
a present value becomes a context error. interface-name is fetched with get,
so its absence is not an error. -/
def extract_connection_fields (connection_profile : NestedProfile) : Res ConnFields :=
  match getAL "connection" connection_profile with
  | none => Res.panic
  | some conn =>
    match getAL "id" conn with
    | none => Res.panic
    | some idv =>
      match idv.as_str with
      | none => Res.err (GetSecretError.malformedRequest "connection.id")
      | some conn_id =>
        match getAL "uuid" conn with
        | none => Res.panic
        | some uuidv =>
          match uuidv.as_str with
          | none => Res.err (GetSecretError.malformedRequest "connection.uuid")
          | some conn_uuid =>
            match getAL "type" conn with
            | none => Res.panic
            | some typev =>
              match typev.as_str with
              | none => Res.err (GetSecretError.malformedRequest "connection.type")
              | some conn_type =>
                match getAL "interface-name" conn with
                | none => Res.ok { conn_id := conn_id, conn_uuid := conn_uuid,
                                   conn_type := conn_type, iface_name := none }
                | some ifacev =>
                  match ifacev.as_str with
                  | none => Res.err (GetSecretError.malformedRequest "connection.interface-name")
                  | some iface =>
                    Res.ok { conn_id := conn_id, conn_uuid := conn_uuid,
                             conn_type := conn_type, iface_name := some iface }

/-! ## Settings encoders (src/mapping.rs) -/

/-- A value stored in an outgoing property map: the encoders only ever
insert secret strings, or (under the literal key "peers") a sequence of
peer sub-maps whose properties are all strings. -/
inductive PropValue where
  | str : String → PropValue
  | peerList : List (List (String × String)) → PropValue
deriving Repr, DecidableEq

/-- An outgoing property map (Rust PropMap). -/
abbrev PropMap : Type := List (String × PropValue)

/-- An outgoing NestedSettingsMap: section name to encoded section. -/
abbrev NestedSettingsMap : Type := List (String × PropMap)

/-- encode_generic_secrets from src/mapping.rs: collect key to value into
one flat map (later duplicates overwrite earlier ones, as in HashMap
collect) and report the map keys as the inserted-keys set. -/
def encode_generic_secrets (secrets : List Secret) : PropMap × List String :=
  let map := secrets.foldl (fun m s => upsert s.key (PropValue.str s.value) m) []
  (map, map.map Prod.fst)

/-- The peers accumulator of encode_wireguard_secrets: pubkey to the
sub-map of properties collected for that peer. -/
abbrev PeersMap : Type := List (String × List (String × String))

/-- One iteration of the secrets loop of encode_wireguard_secrets
(src/mapping.rs lines 163 to 187) for a key that splits as
peers.pubkey.subkey: fetch or create the sub-map of pubkey and insert
subkey there. -/
def upsertPeer (pubkey subkey value : String) : PeersMap → PeersMap
  | [] => [(pubkey, [(subkey, value)])]
  | (p, vals) :: rest =>
    if p == pubkey then (p, upsert subkey value vals) :: rest
    else (p, vals) :: upsertPeer pubkey subkey value rest

/-- The split of a secret key at dots, as Rust str::split(".") produces
it: the character sequence is cut at every dot, so an empty key yields one
empty piece and adjacent dots yield empty pieces, exactly as in Rust. -/
def splitKey (key : String) : List String :=
  (key.toList.splitOn '.').map (fun cs => String.mk cs)

/-- The pattern match of encode_wireguard_secrets on the split key: a key
of the exact three-part form peers.pubkey.subkey yields its pubkey and
subkey, any other shape falls to the catch-all arm. -/
def peerParts (key : String) : Option (String × String) :=
  match splitKey key with
  | ["peers", pubkey, subkey] => some (pubkey, subkey)
  | _ => none

/-- Whether a key has the exact three-part peer form peers.pubkey.subkey. -/
def isPeerKey (key : String) : Bool :=
  (peerParts key).isSome

/-- The secrets loop of encode_wireguard_secrets: thread the top-level
props, the inserted-keys set and the peers accumulator over the secret
list. -/
def wgLoop : List Secret → PropMap × List String × PeersMap → PropMap × List String × PeersMap
  | [], acc => acc
  | s :: rest, (props, inserted, peers) =>
    match peerParts s.key with
    | some (pubkey, subkey) =>
      wgLoop rest (props, setInsert s.key inserted, upsertPeer pubkey subkey s.value peers)
    | none =>
      wgLoop rest (upsert s.key (PropValue.str s.value) props, setInsert s.key inserted, peers)

/-- The conversion of one collected peer into its outgoing property map
(src/mapping.rs lines 202 to 208): copy the collected properties, then
insert public-key with the pubkey, overwriting any collected binding of
that name. -/
def peerPropMap (pubkey : String) (vals : List (String × String)) : List (String × String) :=
  upsert "public-key" pubkey vals

/-- encode_wireguard_secrets from src/mapping.rs: run the secrets loop and,
when any peer entries were produced, insert their sub-maps as a sequence
under the literal top-level key "peers". -/
def encode_wireguard_secrets (secrets : List Secret) : PropMap × List String :=
  match wgLoop secrets ([], [], []) with
  | (props, inserted, peers) =>
    let props :=
      if peers.isEmpty then props
      else upsert "peers" (PropValue.peerList (peers.map (fun pv => peerPropMap pv.1 pv.2))) props
    (props, inserted)

/-- The encoder dispatch of get_secret (src/mapping.rs lines 107 to 110). -/
def encode_secrets (requested_setting : String) (secrets : List Secret) : PropMap × List String :=
  if requested_setting == "wireguard" then encode_wireguard_secrets secrets
  else encode_generic_secrets secrets

/-! ## get_secret (src/mapping.rs lines 42 to 135) -/

/-- The RequestNew bit of GetSecretsFlags in src/dbus.rs. -/
def requestNewFlag : Nat := 2

/-- The body of get_secret after field extraction: reject the RequestNew
flag, find and read the matching secrets (any unreadable source fails the
whole call), return an empty map when nothing matched, otherwise encode the
secrets under the requested setting name. The hints only drive a log
warning and never change the result. -/
def get_secret_core (fs : FileSystem) (config : AgentConfig) (fields : ConnFields)
    (requested_setting : String) (hints : List String) (flags : Nat) :
    Res NestedSettingsMap :=
  if flags &&& requestNewFlag == requestNewFlag then
    Res.err GetSecretError.unsupportedFlag
  else
    match read_secrets fs (find_matching_secrets config fields.conn_id fields.conn_uuid
        fields.conn_type fields.iface_name requested_setting) with
    | Except.error file => Res.err (GetSecretError.sourceUnreadable file)
    | Except.ok secrets =>
      if secrets.isEmpty then Res.ok []
      else Res.ok [(requested_setting, (encode_secrets requested_setting secrets).1)]

/-- get_secret from src/mapping.rs: extract the connection fields from the
profile, then run the resolution body. -/
def get_secret (fs : FileSystem) (config : AgentConfig) (connection_profile : NestedProfile)
    (requested_setting : String) (hints : List String) (flags : Nat) :
    Res NestedSettingsMap :=
  match extract_connection_fields connection_profile with
  | Res.panic => Res.panic
  | Res.err e => Res.err e
  | Res.ok fields => get_secret_core fs config fields requested_setting hints flags

/-! ## D-Bus facing layer (src/dbus.rs) -/

/-- Result of one inbound method call as the dbus-crossroads dispatcher
sees it: a typed reply, a MethodErr, or a thread panic inside the
handler. -/
inductive CallResult (α : Type) where
  | ok : α → CallResult α
  | methodErr : String → CallResult α
  | panicked : CallResult α
deriving Repr, DecidableEq

/-- verify_access from src/dbus.rs (lines 228 to 245): deny a call without
a sender, deny a sender that is not among the known NetworkManager names,
allow a known sender. -/
def verify_access (known_nm_names : List String) (sender : Option String) :
    Except String Unit :=
  match sender with
  | none => Except.error "Access Denied"
  | some sender =>
    match known_nm_names.any (fun i => i == sender) with
    | true => Except.ok ()
    | false => Except.error "Access Denied"

/-- A printable rendering of a get_secret error, standing in for the anyhow
display string passed to MethodErr::failed. -/
def describeError : GetSecretError → String
  | GetSecretError.malformedRequest f => "Connection property " ++ f ++ " is not a string"
  | GetSecretError.unsupportedFlag =>
      "NetworkManager requested new credentials which cannot be provided by this agent"
  | GetSecretError.sourceUnreadable f => "Could not read secret content from " ++ f

/-- The GetSecrets method handler registered in run (src/dbus.rs lines 76
to 99): verify the sender first, then delegate to mapping::get_secret and
convert its outcome into the method reply. -/
def handle_get_secrets (known_nm_names : List String) (fs : FileSystem)
    (config : AgentConfig) (sender : Option String) (connection : NestedProfile)
    (setting_name : String) (hints : List String) (flags : Nat) :
    CallResult NestedSettingsMap :=
  match verify_access known_nm_names sender with
  | Except.error e => CallResult.methodErr e
  | Except.ok _ =>
    match get_secret fs config connection setting_name hints flags with
    | Res.ok secrets => CallResult.ok secrets
    | Res.err e => CallResult.methodErr (describeError e)
    | Res.panic => CallResult.panicked

/-- The CancelGetSecrets handler (src/dbus.rs lines 102 to 112): logs and
returns Ok without consulting the sender. -/
def handle_cancel_get_secrets (sender : Option String) (connection_path : String)
    (setting_name : String) : CallResult Unit :=
  CallResult.ok ()

/-- The SaveSecrets handler (src/dbus.rs lines 115 to 125): logs a warning
and returns Ok without consulting the sender. -/
def handle_save_secrets (sender : Option String) (connection : NestedProfile)
    (connection_path : String) : CallResult Unit :=
  CallResult.ok ()

/-- The DeleteSecrets handler (src/dbus.rs lines 128 to 138): logs a
warning and returns Ok without consulting the sender. -/
def handle_delete_secrets (sender : Option String) (connection : NestedProfile)
    (connection_path : String) : CallResult Unit :=
  CallResult.ok ()

/-- The NameOwnerChanged signal payload: arg0 is the well-known name whose
ownership changed, arg1 the old unique name, arg2 the new unique name (the
bus sends an empty string when a side is absent). -/
structure NameOwnerChanged where
  arg0 : String
  arg1 : String
  arg2 : String
deriving Repr, DecidableEq

/-- The well-known bus name of the daemon. -/
def nmWellKnownName : String := "org.freedesktop.NetworkManager"

/-- The NameOwnerChanged closure installed by register_signals
(src/dbus.rs lines 206 to 221): ignore signals about other names; remove a
non-empty old name from the known set; add a non-empty new name and
re-register the agent once. The returned number counts the register_agent
calls the event triggers. -/
def on_name_owner_changed (known_nm_names : List String) (data : NameOwnerChanged) :
    List String × Nat :=
  if data.arg0 == nmWellKnownName then
    let afterRemove :=
      if data.arg1.isEmpty then known_nm_names else setRemove data.arg1 known_nm_names
    if data.arg2.isEmpty then (afterRemove, 0)
    else (setInsert data.arg2 afterRemove, 1)
  else (known_nm_names, 0)

/-! ## Concrete sample data used by witnesses and counterexamples -/

/-- An entry whose only populated match field is match_iface. -/
def ifaceOnlyEntry : MappingEntry :=
  { match_id := none, match_uuid := none, match_type := none,
    match_iface := some "eth0", match_setting := none, key := "k", file := "/f" }

/-- A store holding only the iface-matching entry. -/
def ifaceOnlyConfig : AgentConfig := { entries := [ifaceOnlyEntry] }

/-- A file system on which every path reads the same content. -/
def sampleFs : FileSystem := fun _ => some "hunter2"

/-- A store with a single entry that matches every request. -/
def sampleConfig : AgentConfig := { entries := [allUnsetEntry "psk" "/etc/secret"] }

/-- A well-formed connection profile carrying the three required string
properties and no interface name. -/
def sampleProfile : NestedProfile :=
  [("connection", [("id", DBusValue.str "wifi"), ("uuid", DBusValue.str "u-1"),
    ("type", DBusValue.str "802-11-wireless")])]

/-- The connection fields that sampleProfile extracts to. -/
def sampleFields : ConnFields :=
  { conn_id := "wifi", conn_uuid := "u-1", conn_type := "802-11-wireless",
    iface_name := none }

/-- A connection profile whose connection section lacks the required id
property. -/
def noIdProfile : NestedProfile :=
  [("connection", [("uuid", DBusValue.str "u-1"), ("type", DBusValue.str "802-11-wireless")])]

/-- A connection profile whose id property is present but not a string. -/
def nonStrIdProfile : NestedProfile :=
  [("connection", [("id", DBusValue.nonStr), ("uuid", DBusValue.str "u-1"),
    ("type", DBusValue.str "802-11-wireless")])]

/-! ## Helper lemmas on the map and set operations -/

theorem getAL_upsert_self {α : Type} (k : String) (v : α) (l : List (String × α)) :
    getAL k (upsert k v l) = some v := by
  induction l with
  | nil => simp [upsert, getAL]
  | cons hd tl ih =>
    by_cases h : hd.1 = k
    · simp [upsert, getAL, h]
    · simp only [upsert, getAL]
      rw [if_neg (by simpa using h), getAL, if_neg (by simpa using h)]
      exact ih

theorem getAL_upsert_ne {α : Type} {k k0 : String} (hne : k ≠ k0) (v : α)
    (l : List (String × α)) : getAL k0 (upsert k v l) = getAL k0 l := by
  induction l with
  | nil => simp [upsert, getAL, hne]
  | cons hd tl ih =>
    obtain ⟨a, b⟩ := hd
    by_cases h : a = k
    · subst h
      simp [upsert, getAL, hne, Ne.symm hne]
    · simp [upsert, getAL, h, ih]

theorem getAL_upsert_isSome {α : Type} {k0 : String} {l : List (String × α)}
    (k : String) (v : α) (h : (getAL k0 l).isSome = true) :
    (getAL k0 (upsert k v l)).isSome = true := by
  by_cases hk : k = k0
  · subst hk; simp [getAL_upsert_self]
  · rwa [getAL_upsert_ne hk]

theorem getAL_some_mem {α : Type} {k : String} {v : α} {l : List (String × α)}
    (h : getAL k l = some v) : (k, v) ∈ l := by
  induction l with
  | nil => simp [getAL] at h
  | cons hd tl ih =>
    obtain ⟨a, b⟩ := hd
    simp only [getAL] at h
    by_cases h1 : a = k
    · subst h1
      simp at h
      subst h
      exact List.mem_cons_self _ _
    · simp [h1] at h
      exact List.mem_cons_of_mem _ (ih h)

theorem getAL_isSome_iff_mem_keys {α : Type} (k : String) (l : List (String × α)) :
    (getAL k l).isSome = true ↔ k ∈ l.map Prod.fst := by
  induction l with
  | nil => simp [getAL]
  | cons hd tl ih =>
    simp only [getAL, List.map_cons, List.mem_cons]
    by_cases h1 : hd.1 = k
    · simp [h1]
    · rw [if_neg (by simpa using h1)]
      simp only [ih]
      constructor
      · exact Or.inr
      · rintro (h | h)
        · exact absurd h.symm h1
        · exact h

theorem mem_setInsert {x y : String} {s : List String} :
    x ∈ setInsert y s ↔ x = y ∨ x ∈ s := by
  unfold setInsert
  by_cases h : y ∈ s
  · simp only [if_pos h]
    constructor
    · exact Or.inr
    · rintro (rfl | hx)
      · exact h
      · exact hx
  · simp [if_neg h, List.mem_append, or_comm]

theorem mem_setRemove {x y : String} {s : List String} :
    x ∈ setRemove y s ↔ x ∈ s ∧ x ≠ y := by
  unfold setRemove
  simp [List.mem_filter, bne_iff_ne]

/-! ## Helper lemmas on read_secrets -/

theorem read_secrets_error_elim {fs : FileSystem} {l : List MappingEntry} {f : String}
    (h : read_secrets fs l = Except.error f) : ∃ e ∈ l, fs e.file = none := by
  induction l generalizing f with
  | nil => simp [read_secrets] at h
  | cons hd tl ih =>
    simp only [read_secrets] at h
    cases hfs : fs hd.file with
    | none => exact ⟨hd, List.mem_cons_self hd tl, hfs⟩
    | some v =>
      rw [hfs] at h
      cases hrest : read_secrets fs tl with
      | error e =>
        obtain ⟨e2, he2, hn⟩ := ih hrest
        exact ⟨e2, List.mem_cons_of_mem _ he2, hn⟩
      | ok s => rw [hrest] at h; simp at h

theorem read_secrets_error_of {fs : FileSystem} {l : List MappingEntry} {e : MappingEntry}
    (he : e ∈ l) (hn : fs e.file = none) : ∃ f, read_secrets fs l = Except.error f := by
  induction l with
  | nil => simp at he
  | cons hd tl ih =>
    simp only [read_secrets]
    cases hfs : fs hd.file with
    | none => exact ⟨hd.file, rfl⟩
    | some v =>
      rcases List.mem_cons.mp he with rfl | he2
      · rw [hfs] at hn; simp at hn
      · obtain ⟨f, hf⟩ := ih he2
        rw [hf]
        exact ⟨f, rfl⟩

theorem read_secrets_ok_keys {fs : FileSystem} {l : List MappingEntry} {s : List Secret}
    (h : read_secrets fs l = Except.ok s) :
    s.map Secret.key = l.map MappingEntry.key := by
  induction l generalizing s with
  | nil => simp [read_secrets] at h; simp [h]
  | cons hd tl ih =>
    simp only [read_secrets] at h
    cases hfs : fs hd.file with
    | none => rw [hfs] at h; simp at h
    | some v =>
      rw [hfs] at h
      cases hrest : read_secrets fs tl with
      | error e => rw [hrest] at h; simp at h
      | ok s2 =>
        rw [hrest] at h
        cases h
        simp [ih hrest]

/-! ## The matching engine is the declarative predicate -/

theorem option_any_bne_eq_not_all (o : Option String) (c : String) :
    o.any (fun v => v != c) = !o.all (fun v => v == c) := by
  cases o <;> simp [bne]

theorem matchesEntry_eq_specMatches (cid cu ct : String) (ifn : Option String)
    (st : String) (e : MappingEntry) :
    matchesEntry cid cu ct ifn st e = specMatches cid cu ct ifn st e := by
  simp only [matchesEntry, specMatches, specMatchesFourFields, option_any_bne_eq_not_all]
  rcases ifn with _ | iv <;> rcases hmf : e.match_iface with _ | vf <;>
    simp only [hmf, Option.any_none, Option.any_some] <;>
    cases hA : Option.all (fun v => v == cid) e.match_id <;>
    cases hB : Option.all (fun v => v == cu) e.match_uuid <;>
    cases hC : Option.all (fun v => v == ct) e.match_type <;>
    cases hD : Option.all (fun v => v == st) e.match_setting <;>
    simp [hA, hB, hC, hD, bne] <;>
    cases hE : vf == iv <;> simp_all

theorem specMatches_none_eq_fourFields (cid cu ct st : String) (e : MappingEntry) :
    specMatches cid cu ct none st e = specMatchesFourFields cid cu ct st e := by
  rcases hmf : e.match_iface with _ | vf <;> simp [specMatches, hmf]

theorem find_matching_eq_filter_spec (config : AgentConfig) (cid cu ct : String)
    (ifn : Option String) (st : String) :
    find_matching_secrets config cid cu ct ifn st =
      config.entries.filter (specMatches cid cu ct ifn st) := by
  unfold find_matching_secrets
  exact List.filter_congr (fun e _ => matchesEntry_eq_specMatches cid cu ct ifn st e)

/-! ## Claim C2 -/

/-- C2 counterexample: an entry whose only populated match field is
match_iface satisfies the four-field criterion of the claim and sits in the
store, yet a request carrying a different interface name gets the empty
match list — so find_matching_secrets does not return exactly the entries
passing the four-field criterion. -/
theorem C2_counterexample :
    specMatchesFourFields "myconn" "uuid-1" "wifi" "wpa-psk" ifaceOnlyEntry = true ∧
    ifaceOnlyEntry ∈ ifaceOnlyConfig.entries ∧
    find_matching_secrets ifaceOnlyConfig "myconn" "uuid-1" "wifi" (some "wlan0") "wpa-psk"
      = [] := by
  decide

/-- C2 (amended): find_matching_secrets returns, in insertion order, exactly
the entries whose populated fields among match_id, match_uuid, match_type
and match_setting equal the request, AND whose match_iface, when populated
and when the request carries an interface name, equals that name; an entry
with all match fields unset matches every request, and the empty store
yields the empty sequence. -/
theorem C2_find_matches_characterization :
    (∀ (config : AgentConfig) (cid cu ct : String) (ifn : Option String) (st : String),
      find_matching_secrets config cid cu ct ifn st =
        config.entries.filter (specMatches cid cu ct ifn st)) ∧
    (∀ (config : AgentConfig) (cid cu ct : String) (ifn : Option String) (st : String)
        (e : MappingEntry),
      e ∈ find_matching_secrets config cid cu ct ifn st ↔
        e ∈ config.entries ∧ specMatches cid cu ct ifn st e = true) ∧
    (∀ (cid cu ct : String) (ifn : Option String) (st k f : String),
      specMatches cid cu ct ifn st (allUnsetEntry k f) = true) ∧
    (∀ (cid cu ct : String) (ifn : Option String) (st : String),
      find_matching_secrets { entries := [] } cid cu ct ifn st = []) := by
  refine ⟨find_matching_eq_filter_spec, ?_, ?_, ?_⟩
  · intro config cid cu ct ifn st e
    rw [find_matching_eq_filter_spec]
    simp [List.mem_filter]
  · intro cid cu ct ifn st k f
    rcases ifn with _ | iv <;>
      simp [specMatches, specMatchesFourFields, allUnsetEntry]
  · intro cid cu ct ifn st
    rfl

/-! ## Claim C3 -/

/-- C3 counterexample: for a request without an interface name, the entry
whose match_iface is populated is still returned by find_matching_secrets,
while the claim says it must be excluded. -/
theorem C3_counterexample :
    ifaceOnlyEntry.match_iface = some "eth0" ∧
    find_matching_secrets ifaceOnlyConfig "myconn" "uuid-1" "wifi" none "wpa-psk"
      = [ifaceOnlyEntry] := by
  decide

/-- C3 (amended): when the request carries no interface name, the
match_iface criterion is skipped entirely — an entry matches exactly when
its populated fields among the other four equal the request, so an entry
with match_iface set is NOT excluded (and an entry with match_iface unset
matches such a request whenever its other fields pass). -/
theorem C3_iface_absent_skips_check :
    (∀ (config : AgentConfig) (cid cu ct st : String),
      find_matching_secrets config cid cu ct none st =
        config.entries.filter (specMatchesFourFields cid cu ct st)) ∧
    (∀ (config : AgentConfig) (cid cu ct st : String) (e : MappingEntry),
      e ∈ config.entries → e.match_iface ≠ none →
      specMatchesFourFields cid cu ct st e = true →
      e ∈ find_matching_secrets config cid cu ct none st) := by
  have hfilter : ∀ (config : AgentConfig) (cid cu ct st : String),
      find_matching_secrets config cid cu ct none st =
        config.entries.filter (specMatchesFourFields cid cu ct st) := by
    intro config cid cu ct st
    rw [find_matching_eq_filter_spec]
    exact List.filter_congr (fun e _ => specMatches_none_eq_fourFields cid cu ct st e)
  refine ⟨hfilter, ?_⟩
  intro config cid cu ct st e he _ hspec
  rw [hfilter]
  exact List.mem_filter.mpr ⟨he, hspec⟩

/-! ## Claim C1 -/

/-- C1: for a request whose required connection fields extract successfully,
get_secret returns an error exactly when the flags carry the request-new
bit or some matched entry's backing source cannot be read; with the flag
clear and zero matches it returns success with the empty map, and any
successful result is either empty or the encoding of the complete secret
list read from ALL matched entries (one secret per matched entry, in
order), never a strict subset. -/
theorem C1_resolution_error_iff (fs : FileSystem) (config : AgentConfig)
    (profile : NestedProfile) (setting : String) (hints : List String) (flags : Nat)
    (fields : ConnFields)
    (h : extract_connection_fields profile = Res.ok fields) :
    ((get_secret fs config profile setting hints flags).isErr = true ↔
      (flags &&& requestNewFlag = requestNewFlag ∨
       ∃ e ∈ find_matching_secrets config fields.conn_id fields.conn_uuid fields.conn_type
           fields.iface_name setting, fs e.file = none)) ∧
    (¬ flags &&& requestNewFlag = requestNewFlag →
      find_matching_secrets config fields.conn_id fields.conn_uuid fields.conn_type
          fields.iface_name setting = [] →
      get_secret fs config profile setting hints flags = Res.ok []) ∧
    (∀ r, get_secret fs config profile setting hints flags = Res.ok r →
      r = [] ∨
      ∃ secrets, read_secrets fs (find_matching_secrets config fields.conn_id fields.conn_uuid
          fields.conn_type fields.iface_name setting) = Except.ok secrets ∧
        secrets.map Secret.key = (find_matching_secrets config fields.conn_id fields.conn_uuid
          fields.conn_type fields.iface_name setting).map MappingEntry.key ∧
        r = [(setting, (encode_secrets setting secrets).1)]) := by
  have hg : get_secret fs config profile setting hints flags =
      get_secret_core fs config fields setting hints flags := by
    simp [get_secret, h]
  have hcore : ∀ secrets, read_secrets fs (find_matching_secrets config fields.conn_id
        fields.conn_uuid fields.conn_type fields.iface_name setting) = Except.ok secrets →
      (flags &&& requestNewFlag == requestNewFlag) = false →
      get_secret_core fs config fields setting hints flags =
        (if secrets.isEmpty then Res.ok []
         else Res.ok [(setting, (encode_secrets setting secrets).1)]) := by
    intro secrets hread hb
    unfold get_secret_core
    rw [if_neg (by simp [hb]), hread]
  have herrcore : ∀ f, read_secrets fs (find_matching_secrets config fields.conn_id
        fields.conn_uuid fields.conn_type fields.iface_name setting) = Except.error f →
      (flags &&& requestNewFlag == requestNewFlag) = false →
      get_secret_core fs config fields setting hints flags =
        Res.err (GetSecretError.sourceUnreadable f) := by
    intro f hread hb
    unfold get_secret_core
    rw [if_neg (by simp [hb]), hread]
  refine ⟨?_, ?_, ?_⟩
  · rw [hg]
    cases hb : (flags &&& requestNewFlag == requestNewFlag) with
    | true =>
      have : get_secret_core fs config fields setting hints flags =
          Res.err GetSecretError.unsupportedFlag := by
        unfold get_secret_core
        rw [if_pos hb]
      rw [this]
      simp only [Res.isErr, true_iff]
      exact Or.inl (by simpa using hb)
    | false =>
      have hnoflag : ¬ flags &&& requestNewFlag = requestNewFlag := by
        intro hc
        rw [hc] at hb
        simp at hb
      cases hr : read_secrets fs (find_matching_secrets config fields.conn_id fields.conn_uuid
          fields.conn_type fields.iface_name setting) with
      | error f =>
        rw [herrcore f hr hb]
        simp only [Res.isErr, true_iff]
        exact Or.inr (read_secrets_error_elim hr)
      | ok secrets =>
        have hok : ∀ e ∈ find_matching_secrets config fields.conn_id fields.conn_uuid
            fields.conn_type fields.iface_name setting, ¬ fs e.file = none := by
          intro e he hn
          obtain ⟨f, hf⟩ := read_secrets_error_of he hn
          rw [hf] at hr
          exact Except.noConfusion hr
        rw [hcore secrets hr hb]
        have hfalse : (if secrets.isEmpty then (Res.ok [] : Res NestedSettingsMap)
            else Res.ok [(setting, (encode_secrets setting secrets).1)]).isErr = false := by
          cases secrets.isEmpty <;> simp [Res.isErr]
        rw [hfalse]
        simp only [Bool.false_eq_true, false_iff]
        rintro (hc | ⟨e, he, hn⟩)
        · exact hnoflag hc
        · exact hok e he hn
  · intro hflag hmatch
    rw [hg]
    have hb : (flags &&& requestNewFlag == requestNewFlag) = false := by
      cases hb2 : (flags &&& requestNewFlag == requestNewFlag) with
      | true => exact absurd (by simpa using hb2 : flags &&& requestNewFlag = requestNewFlag) hflag
      | false => rfl
    have hread : read_secrets fs (find_matching_secrets config fields.conn_id
        fields.conn_uuid fields.conn_type fields.iface_name setting) = Except.ok [] := by
      rw [hmatch]
      rfl
    rw [hcore [] hread hb]
    rfl
  · intro r hr
    rw [hg] at hr
    cases hb : (flags &&& requestNewFlag == requestNewFlag) with
    | true =>
      have : get_secret_core fs config fields setting hints flags =
          Res.err GetSecretError.unsupportedFlag := by
        unfold get_secret_core
        rw [if_pos hb]
      rw [this] at hr
      exact Res.noConfusion hr
    | false =>
      cases hread : read_secrets fs (find_matching_secrets config fields.conn_id
          fields.conn_uuid fields.conn_type fields.iface_name setting) with
      | error f =>
        rw [herrcore f hread hb] at hr
        exact Res.noConfusion hr
      | ok secrets =>
        rw [hcore secrets hread hb] at hr
        cases hempty : secrets.isEmpty with
        | true =>
          rw [if_pos (by simp [hempty])] at hr
          cases hr
          exact Or.inl rfl
        | false =>
          rw [if_neg (by simp [hempty])] at hr
          cases hr
          exact Or.inr ⟨secrets, rfl, read_secrets_ok_keys hread, rfl⟩

/-- C1 witness: a concrete well-formed request against a one-entry store
whose backing file is readable resolves without error. -/
theorem C1_resolution_witness :
    (get_secret sampleFs sampleConfig sampleProfile "802-11-wireless-security" [] 0).isErr
      = false := by
  have h := (C1_resolution_error_iff sampleFs sampleConfig sampleProfile
      "802-11-wireless-security" [] 0 sampleFields rfl).1
  rw [Bool.eq_false_iff]
  intro hc
  rw [h] at hc
  rcases hc with habs | ⟨e, he, hn⟩
  · exact absurd habs (by decide)
  · simp [sampleFs] at hn

/-! ## Claim C5 helpers and theorem -/

theorem verify_access_not_mem {known : List String} {s : String} (h : s ∉ known) :
    verify_access known (some s) = Except.error "Access Denied" := by
  cases hany : known.any (fun i => i == s) with
  | true =>
    obtain ⟨x, hx, hxs⟩ := List.any_eq_true.mp hany
    rw [beq_iff_eq] at hxs
    exact absurd (hxs ▸ hx) h
  | false => simp [verify_access, hany]

theorem verify_access_mem {known : List String} {s : String} (h : s ∈ known) :
    verify_access known (some s) = Except.ok () := by
  have hany : known.any (fun i => i == s) = true :=
    List.any_eq_true.mpr ⟨s, h, beq_self_eq_true s⟩
  simp [verify_access, hany]

theorem handle_get_secrets_denied (known : List String) (sender : Option String)
    (h : verify_access known sender = Except.error "Access Denied")
    (fs : FileSystem) (config : AgentConfig) (conn : NestedProfile)
    (setting : String) (hints : List String) (flags : Nat) :
    handle_get_secrets known fs config sender conn setting hints flags =
      CallResult.methodErr "Access Denied" := by
  unfold handle_get_secrets
  rw [h]

/-- C5: verify_access denies a call without a sender, denies a sender that
is not a member of the current known-name set, and allows a member; and
whenever verification denies, the GetSecrets handler replies Access Denied
uniformly for every file system and store — so no matching and no source
read can influence (or be caused by) the denied call. -/
theorem C5_verify_sender_gates_fetch :
    (∀ known : List String, verify_access known none = Except.error "Access Denied") ∧
    (∀ (known : List String) (s : String), s ∉ known →
      verify_access known (some s) = Except.error "Access Denied") ∧
    (∀ (known : List String) (s : String), s ∈ known →
      verify_access known (some s) = Except.ok ()) ∧
    (∀ (known : List String) (sender : Option String),
      verify_access known sender = Except.error "Access Denied" →
      ∀ (fs : FileSystem) (config : AgentConfig) (conn : NestedProfile)
        (setting : String) (hints : List String) (flags : Nat),
        handle_get_secrets known fs config sender conn setting hints flags =
          CallResult.methodErr "Access Denied") := by
  refine ⟨fun _ => rfl, ?_, ?_, ?_⟩
  · intro known s h
    exact verify_access_not_mem h
  · intro known s h
    exact verify_access_mem h
  · intro known sender h fs config conn setting hints flags
    exact handle_get_secrets_denied known sender h fs config conn setting hints flags

/-! ## Claim C6 -/

/-- C6 counterexample: a sender that is certainly not NetworkManager (the
known-name set is empty, and even an absent sender is shown) still gets its
CancelGetSecrets, SaveSecrets and DeleteSecrets calls acknowledged with
success — three of the four operations are not gated at all. -/
theorem C6_counterexample :
    verify_access [] (some "com.example.rogue") = Except.error "Access Denied" ∧
    handle_cancel_get_secrets (some "com.example.rogue") "/conn/1" "wireguard"
      = CallResult.ok () ∧
    handle_save_secrets (some "com.example.rogue") sampleProfile "/conn/1"
      = CallResult.ok () ∧
    handle_delete_secrets (some "com.example.rogue") sampleProfile "/conn/1"
      = CallResult.ok () ∧
    handle_cancel_get_secrets none "/conn/1" "wireguard" = CallResult.ok () := by
  exact ⟨rfl, rfl, rfl, rfl, rfl⟩

/-- C6 (amended): only GetSecrets is gated against the known NetworkManager
names — a call with an absent or unknown sender fails there — while
CancelGetSecrets, SaveSecrets and DeleteSecrets unconditionally succeed for
every sender. -/
theorem C6_only_fetch_is_gated :
    (∀ (known : List String) (fs : FileSystem) (config : AgentConfig)
        (conn : NestedProfile) (setting : String) (hints : List String) (flags : Nat),
      handle_get_secrets known fs config none conn setting hints flags =
        CallResult.methodErr "Access Denied") ∧
    (∀ (known : List String) (s : String), s ∉ known →
      ∀ (fs : FileSystem) (config : AgentConfig) (conn : NestedProfile)
        (setting : String) (hints : List String) (flags : Nat),
      handle_get_secrets known fs config (some s) conn setting hints flags =
        CallResult.methodErr "Access Denied") ∧
    (∀ (sender : Option String) (path setting : String),
      handle_cancel_get_secrets sender path setting = CallResult.ok ()) ∧
    (∀ (sender : Option String) (conn : NestedProfile) (path : String),
      handle_save_secrets sender conn path = CallResult.ok ()) ∧
    (∀ (sender : Option String) (conn : NestedProfile) (path : String),
      handle_delete_secrets sender conn path = CallResult.ok ()) := by
  refine ⟨?_, ?_, fun _ _ _ => rfl, fun _ _ _ => rfl, fun _ _ _ => rfl⟩
  · intro known fs config conn setting hints flags
    exact handle_get_secrets_denied known none rfl fs config conn setting hints flags
  · intro known s h fs config conn setting hints flags
    exact handle_get_secrets_denied known (some s) (verify_access_not_mem h)
      fs config conn setting hints flags

/-! ## Claim C7 -/

/-- C7: an ownership-change notification about any other well-known name
leaves the known-name set untouched and triggers no re-registration; one
about the daemon's well-known name removes a non-empty old owner, adds a
non-empty new owner, and triggers exactly one re-registration exactly when
the new owner is non-empty; in particular after old = A, new = B on the
daemon's name, A is no longer a member and B is. -/
theorem C7_name_owner_change :
    (∀ (known : List String) (data : NameOwnerChanged), data.arg0 ≠ nmWellKnownName →
      on_name_owner_changed known data = (known, 0)) ∧
    (∀ (known : List String) (data : NameOwnerChanged), data.arg0 = nmWellKnownName →
      ∀ x, x ∈ (on_name_owner_changed known data).1 ↔
        ((data.arg2 ≠ "" ∧ x = data.arg2) ∨
         (x ∈ known ∧ (data.arg1 = "" ∨ x ≠ data.arg1)))) ∧
    (∀ (known : List String) (data : NameOwnerChanged), data.arg0 = nmWellKnownName →
      (on_name_owner_changed known data).2 = if data.arg2 = "" then 0 else 1) ∧
    (on_name_owner_changed ["A", nmWellKnownName]
        { arg0 := nmWellKnownName, arg1 := "A", arg2 := "B" }
      = ([nmWellKnownName, "B"], 1)) := by
  have hne : ∀ s : String, s ≠ "" → s.isEmpty = false := by
    intro s hs
    cases he : s.isEmpty with
    | true =>
      rw [String.isEmpty_iff] at he
      exact absurd he hs
    | false => rfl
  have hbe : ("" : String).isEmpty = true := rfl
  refine ⟨?_, ?_, ?_, by decide⟩
  · intro known data h
    unfold on_name_owner_changed
    rw [if_neg (by simp [h])]
  · intro known data h x
    have hpos : (data.arg0 == nmWellKnownName) = true := by simp [h]
    by_cases e1 : data.arg1 = "" <;> by_cases e2 : data.arg2 = ""
    · simp [on_name_owner_changed, hpos, hbe, e1, e2, mem_setInsert, mem_setRemove]
    · simp [on_name_owner_changed, hpos, hbe, hne _ e2, e1, e2,
        mem_setInsert, mem_setRemove]
    · simp [on_name_owner_changed, hpos, hbe, hne _ e1, e2, e1,
        mem_setInsert, mem_setRemove]
    · simp [on_name_owner_changed, hpos, hne _ e1, hne _ e2, e1, e2,
        mem_setInsert, mem_setRemove]
  · intro known data h
    have hpos : (data.arg0 == nmWellKnownName) = true := by simp [h]
    by_cases e2 : data.arg2 = ""
    · simp [on_name_owner_changed, hpos, hbe, e2]
    · simp [on_name_owner_changed, hpos, hne _ e2, e2]

theorem as_str_str (s : String) : (DBusValue.str s).as_str = some s := rfl

/-! ## Claim C8 -/

/-- C8 counterexample: a request whose connection section lacks the
required id property makes get_secret panic (the Rust HashMap index
operator panics on an absent key) instead of failing with a
MalformedRequest error; a present-but-non-string id, by contrast, does
yield the error. -/
theorem C8_counterexample :
    get_secret sampleFs { entries := [] } noIdProfile "802-11-wireless-security" [] 0
      = Res.panic ∧
    get_secret sampleFs { entries := [] } nonStrIdProfile "802-11-wireless-security" [] 0
      = Res.err (GetSecretError.malformedRequest "connection.id") := by
  exact ⟨rfl, rfl⟩

/-- C8 (amended): a required property (connection section, id, uuid, type)
that is missing makes get_secret panic rather than return an error; a
required property that is present but not extractable as a string fails
with MalformedRequest; an absent interface-name is not a failure (the
extraction succeeds with no interface name), while a present non-string
interface-name fails with MalformedRequest. -/
theorem C8_missing_fields_panic :
    ∀ (fs : FileSystem) (config : AgentConfig) (profile : NestedProfile)
      (setting : String) (hints : List String) (flags : Nat),
    (getAL "connection" profile = none →
      get_secret fs config profile setting hints flags = Res.panic) ∧
    (∀ conn, getAL "connection" profile = some conn →
      ((getAL "id" conn = none →
          get_secret fs config profile setting hints flags = Res.panic) ∧
       (∀ v, getAL "id" conn = some v → v.as_str = none →
          get_secret fs config profile setting hints flags =
            Res.err (GetSecretError.malformedRequest "connection.id")) ∧
       (∀ i, getAL "id" conn = some (DBusValue.str i) →
          ((getAL "uuid" conn = none →
              get_secret fs config profile setting hints flags = Res.panic) ∧
           (∀ v, getAL "uuid" conn = some v → v.as_str = none →
              get_secret fs config profile setting hints flags =
                Res.err (GetSecretError.malformedRequest "connection.uuid")) ∧
           (∀ u, getAL "uuid" conn = some (DBusValue.str u) →
              ((getAL "type" conn = none →
                  get_secret fs config profile setting hints flags = Res.panic) ∧
               (∀ v, getAL "type" conn = some v → v.as_str = none →
                  get_secret fs config profile setting hints flags =
                    Res.err (GetSecretError.malformedRequest "connection.type")) ∧
               (∀ t, getAL "type" conn = some (DBusValue.str t) →
                  ((getAL "interface-name" conn = none →
                      extract_connection_fields profile = Res.ok
                        { conn_id := i, conn_uuid := u, conn_type := t,
                          iface_name := none }) ∧
                   (∀ v, getAL "interface-name" conn = some v → v.as_str = none →
                      get_secret fs config profile setting hints flags =
                        Res.err (GetSecretError.malformedRequest
                          "connection.interface-name")) ∧
                   (∀ w, getAL "interface-name" conn = some (DBusValue.str w) →
                      extract_connection_fields profile = Res.ok
                        { conn_id := i, conn_uuid := u, conn_type := t,
                          iface_name := some w }))))))))) := by
  intro fs config profile setting hints flags
  constructor
  · intro hc
    simp [get_secret, extract_connection_fields, hc]
  intro conn hc
  refine ⟨?_, ?_, ?_⟩
  · intro hid
    simp [get_secret, extract_connection_fields, hc, hid]
  · intro v hid hvs
    simp [get_secret, extract_connection_fields, hc, hid, hvs]
  intro i hid
  refine ⟨?_, ?_, ?_⟩
  · intro huuid
    simp [get_secret, extract_connection_fields, hc, hid, huuid, DBusValue.as_str]
  · intro v huuid hvs
    simp [get_secret, extract_connection_fields, hc, hid, huuid, hvs, as_str_str]
  intro u huuid
  refine ⟨?_, ?_, ?_⟩
  · intro htype
    simp [get_secret, extract_connection_fields, hc, hid, huuid, htype, DBusValue.as_str]
  · intro v htype hvs
    simp [get_secret, extract_connection_fields, hc, hid, huuid, htype, hvs, as_str_str]
  intro t htype
  refine ⟨?_, ?_, ?_⟩
  · intro hiface
    simp [extract_connection_fields, hc, hid, huuid, htype, hiface, DBusValue.as_str]
  · intro v hiface hvs
    simp [get_secret, extract_connection_fields, hc, hid, huuid, htype, hiface, hvs,
      as_str_str]
  · intro w hiface
    simp [extract_connection_fields, hc, hid, huuid, htype, hiface, DBusValue.as_str]

/-! ## Encoder helper lemmas -/

theorem peerParts_eq_some_iff {key p sub : String} :
    peerParts key = some (p, sub) ↔ splitKey key = ["peers", p, sub] := by
  unfold peerParts
  rcases hsp : splitKey key with _ | ⟨a, _ | ⟨b, _ | ⟨c, _ | ⟨d, e⟩⟩⟩⟩
  · simp
  · simp
  · simp
  · constructor
    · intro h
      split at h
      · rename_i heq
        injection heq with h1 h2
        injection h2 with h2 h3
        injection h3 with h3 _
        injection h with h4
        injection h4 with h5 h6
        subst h1
        subst h2
        subst h3
        subst h5
        subst h6
        rfl
      · exact Option.noConfusion h
    · intro h
      injection h with h1 h2
      injection h2 with h2 h3
      injection h3 with h3 _
      subst h1
      subst h2
      subst h3
      rfl
  · simp

theorem foldl_upsert_provenance (secrets : List Secret) (m0 : PropMap) (k : String)
    (v : PropValue)
    (h : getAL k (secrets.foldl (fun m s => upsert s.key (PropValue.str s.value) m) m0)
      = some v) :
    (∃ s ∈ secrets, s.key = k ∧ v = PropValue.str s.value) ∨ getAL k m0 = some v := by
  induction secrets generalizing m0 with
  | nil => exact Or.inr h
  | cons hd tl ih =>
    simp only [List.foldl_cons] at h
    rcases ih _ h with hmem | hin
    · obtain ⟨s, hs, hk, hv⟩ := hmem
      exact Or.inl ⟨s, List.mem_cons_of_mem _ hs, hk, hv⟩
    · by_cases hk : hd.key = k
      · subst hk
        rw [getAL_upsert_self] at hin
        injection hin with hv
        exact Or.inl ⟨hd, List.mem_cons_self _ _, rfl, hv.symm⟩
      · rw [getAL_upsert_ne hk] at hin
        exact Or.inr hin

theorem foldl_upsert_preserves (secrets : List Secret) (m0 : PropMap) (k : String)
    (h : (getAL k m0).isSome = true) :
    (getAL k (secrets.foldl (fun m s => upsert s.key (PropValue.str s.value) m) m0)).isSome
      = true := by
  induction secrets generalizing m0 with
  | nil => exact h
  | cons hd tl ih =>
    simp only [List.foldl_cons]
    exact ih _ (getAL_upsert_isSome hd.key _ h)

theorem foldl_upsert_mem (secrets : List Secret) (m0 : PropMap) (s : Secret)
    (hs : s ∈ secrets) :
    (getAL s.key (secrets.foldl (fun m s => upsert s.key (PropValue.str s.value) m) m0)).isSome
      = true := by
  induction secrets generalizing m0 with
  | nil => simp at hs
  | cons hd tl ih =>
    simp only [List.foldl_cons]
    rcases List.mem_cons.mp hs with rfl | hs2
    · exact foldl_upsert_preserves tl _ s.key (by rw [getAL_upsert_self]; rfl)
    · exact ih _ hs2

theorem getAL_upsertPeer_self (p sub v : String) (peers : PeersMap) :
    getAL p (upsertPeer p sub v peers) =
      some (match getAL p peers with
            | some vals => upsert sub v vals
            | none => [(sub, v)]) := by
  induction peers with
  | nil => simp [upsertPeer, getAL]
  | cons hd tl ih =>
    obtain ⟨q, vals⟩ := hd
    by_cases hq : q = p
    · subst hq
      simp [upsertPeer, getAL]
    · simp [upsertPeer, getAL, hq, ih]

theorem getAL_upsertPeer_ne {p q : String} (hne : q ≠ p) (sub v : String)
    (peers : PeersMap) :
    getAL q (upsertPeer p sub v peers) = getAL q peers := by
  induction peers with
  | nil => simp [upsertPeer, getAL, Ne.symm hne]
  | cons hd tl ih =>
    obtain ⟨r, vals⟩ := hd
    by_cases hr : r = p
    · subst hr
      simp [upsertPeer, getAL, Ne.symm hne, hne]
    · simp [upsertPeer, getAL, hr, ih]

/-- The sub-map key presence invariant survives one upsertPeer step. -/
theorem upsertPeer_preserves_sub {p sub : String} {peers : PeersMap}
    (h : ∃ vals, getAL p peers = some vals ∧ (getAL sub vals).isSome = true)
    (p2 sub2 v2 : String) :
    ∃ vals, getAL p (upsertPeer p2 sub2 v2 peers) = some vals ∧
      (getAL sub vals).isSome = true := by
  obtain ⟨vals, hv, hsub⟩ := h
  by_cases hp : p2 = p
  · subst hp
    rw [getAL_upsertPeer_self, hv]
    exact ⟨_, rfl, getAL_upsert_isSome sub2 v2 hsub⟩
  · rw [getAL_upsertPeer_ne (Ne.symm hp)]
    exact ⟨vals, hv, hsub⟩

theorem wgLoop_inserted_mem (secrets : List Secret) (props : PropMap)
    (ins : List String) (peers : PeersMap) (k : String) :
    k ∈ (wgLoop secrets (props, ins, peers)).2.1 ↔
      k ∈ ins ∨ ∃ s ∈ secrets, s.key = k := by
  induction secrets generalizing props ins peers with
  | nil => simp [wgLoop]
  | cons hd tl ih =>
    cases hp : peerParts hd.key with
    | some pr =>
      obtain ⟨pk, sk⟩ := pr
      rw [show wgLoop (hd :: tl) (props, ins, peers) =
            wgLoop tl (props, setInsert hd.key ins, upsertPeer pk sk hd.value peers) by
          simp [wgLoop, hp]]
      rw [ih]
      simp only [mem_setInsert, List.mem_cons]
      constructor
      · rintro ((rfl | hk) | ⟨s, hs, hk⟩)
        · exact Or.inr ⟨hd, Or.inl rfl, rfl⟩
        · exact Or.inl hk
        · exact Or.inr ⟨s, Or.inr hs, hk⟩
      · rintro (hk | ⟨s, (rfl | hs), hk⟩)
        · exact Or.inl (Or.inr hk)
        · exact Or.inl (Or.inl hk.symm)
        · exact Or.inr ⟨s, hs, hk⟩
    | none =>
      rw [show wgLoop (hd :: tl) (props, ins, peers) =
            wgLoop tl (upsert hd.key (PropValue.str hd.value) props,
              setInsert hd.key ins, peers) by
          simp [wgLoop, hp]]
      rw [ih]
      simp only [mem_setInsert, List.mem_cons]
      constructor
      · rintro ((rfl | hk) | ⟨s, hs, hk⟩)
        · exact Or.inr ⟨hd, Or.inl rfl, rfl⟩
        · exact Or.inl hk
        · exact Or.inr ⟨s, Or.inr hs, hk⟩
      · rintro (hk | ⟨s, (rfl | hs), hk⟩)
        · exact Or.inl (Or.inr hk)
        · exact Or.inl (Or.inl hk.symm)
        · exact Or.inr ⟨s, hs, hk⟩

theorem wgLoop_props_provenance (secrets : List Secret) (props : PropMap)
    (ins : List String) (peers : PeersMap) (k : String) (v : PropValue)
    (h : getAL k (wgLoop secrets (props, ins, peers)).1 = some v) :
    (∃ s ∈ secrets, s.key = k ∧ peerParts s.key = none ∧ v = PropValue.str s.value) ∨
      getAL k props = some v := by
  induction secrets generalizing props ins peers with
  | nil => exact Or.inr h
  | cons hd tl ih =>
    cases hp : peerParts hd.key with
    | some pr =>
      obtain ⟨pk, sk⟩ := pr
      rw [show wgLoop (hd :: tl) (props, ins, peers) =
            wgLoop tl (props, setInsert hd.key ins, upsertPeer pk sk hd.value peers) by
          simp [wgLoop, hp]] at h
      rcases ih _ _ _ h with hmem | hin
      · obtain ⟨s, hs, hk, hpn, hv⟩ := hmem
        exact Or.inl ⟨s, List.mem_cons_of_mem _ hs, hk, hpn, hv⟩
      · exact Or.inr hin
    | none =>
      rw [show wgLoop (hd :: tl) (props, ins, peers) =
            wgLoop tl (upsert hd.key (PropValue.str hd.value) props,
              setInsert hd.key ins, peers) by
          simp [wgLoop, hp]] at h
      rcases ih _ _ _ h with hmem | hin
      · obtain ⟨s, hs, hk, hpn, hv⟩ := hmem
        exact Or.inl ⟨s, List.mem_cons_of_mem _ hs, hk, hpn, hv⟩
      · by_cases hk : hd.key = k
        · subst hk
          rw [getAL_upsert_self] at hin
          injection hin with hv
          exact Or.inl ⟨hd, List.mem_cons_self _ _, rfl, hp, hv.symm⟩
        · rw [getAL_upsert_ne hk] at hin
          exact Or.inr hin

theorem wgLoop_props_preserves (secrets : List Secret) (props : PropMap)
    (ins : List String) (peers : PeersMap) (k : String)
    (h : (getAL k props).isSome = true) :
    (getAL k (wgLoop secrets (props, ins, peers)).1).isSome = true := by
  induction secrets generalizing props ins peers with
  | nil => exact h
  | cons hd tl ih =>
    cases hp : peerParts hd.key with
    | some pr =>
      obtain ⟨pk, sk⟩ := pr
      rw [show wgLoop (hd :: tl) (props, ins, peers) =
            wgLoop tl (props, setInsert hd.key ins, upsertPeer pk sk hd.value peers) by
          simp [wgLoop, hp]]
      exact ih _ _ _ h
    | none =>
      rw [show wgLoop (hd :: tl) (props, ins, peers) =
            wgLoop tl (upsert hd.key (PropValue.str hd.value) props,
              setInsert hd.key ins, peers) by
          simp [wgLoop, hp]]
      exact ih _ _ _ (getAL_upsert_isSome hd.key _ h)

theorem wgLoop_props_mem (secrets : List Secret) (props : PropMap)
    (ins : List String) (peers : PeersMap) (s : Secret) (hs : s ∈ secrets)
    (hnone : peerParts s.key = none) :
    (getAL s.key (wgLoop secrets (props, ins, peers)).1).isSome = true := by
  induction secrets generalizing props ins peers with
  | nil => simp at hs
  | cons hd tl ih =>
    cases hp : peerParts hd.key with
    | some pr =>
      obtain ⟨pk, sk⟩ := pr
      rw [show wgLoop (hd :: tl) (props, ins, peers) =
            wgLoop tl (props, setInsert hd.key ins, upsertPeer pk sk hd.value peers) by
          simp [wgLoop, hp]]
      rcases List.mem_cons.mp hs with rfl | hs2
      · rw [hnone] at hp
        exact Option.noConfusion hp
      · exact ih _ _ _ hs2
    | none =>
      rw [show wgLoop (hd :: tl) (props, ins, peers) =
            wgLoop tl (upsert hd.key (PropValue.str hd.value) props,
              setInsert hd.key ins, peers) by
          simp [wgLoop, hp]]
      rcases List.mem_cons.mp hs with rfl | hs2
      · exact wgLoop_props_preserves tl _ _ _ s.key (by rw [getAL_upsert_self]; rfl)
      · exact ih _ _ _ hs2

theorem wgLoop_peers_preserves_sub (secrets : List Secret) (props : PropMap)
    (ins : List String) (peers : PeersMap) (p sub : String)
    (h : ∃ vals, getAL p peers = some vals ∧ (getAL sub vals).isSome = true) :
    ∃ vals, getAL p (wgLoop secrets (props, ins, peers)).2.2 = some vals ∧
      (getAL sub vals).isSome = true := by
  induction secrets generalizing props ins peers with
  | nil => exact h
  | cons hd tl ih =>
    cases hp : peerParts hd.key with
    | some pr =>
      obtain ⟨pk, sk⟩ := pr
      rw [show wgLoop (hd :: tl) (props, ins, peers) =
            wgLoop tl (props, setInsert hd.key ins, upsertPeer pk sk hd.value peers) by
          simp [wgLoop, hp]]
      exact ih _ _ _ (upsertPeer_preserves_sub h pk sk hd.value)
    | none =>
      rw [show wgLoop (hd :: tl) (props, ins, peers) =
            wgLoop tl (upsert hd.key (PropValue.str hd.value) props,
              setInsert hd.key ins, peers) by
          simp [wgLoop, hp]]
      exact ih _ _ _ h

theorem wgLoop_peers_sub (secrets : List Secret) (props : PropMap)
    (ins : List String) (peers : PeersMap) (s : Secret) (p sub : String)
    (hs : s ∈ secrets) (hps : peerParts s.key = some (p, sub)) :
    ∃ vals, getAL p (wgLoop secrets (props, ins, peers)).2.2 = some vals ∧
      (getAL sub vals).isSome = true := by
  induction secrets generalizing props ins peers with
  | nil => simp at hs
  | cons hd tl ih =>
    cases hp : peerParts hd.key with
    | some pr =>
      obtain ⟨pk, sk⟩ := pr
      rw [show wgLoop (hd :: tl) (props, ins, peers) =
            wgLoop tl (props, setInsert hd.key ins, upsertPeer pk sk hd.value peers) by
          simp [wgLoop, hp]]
      rcases List.mem_cons.mp hs with rfl | hs2
      · rw [hps] at hp
        injection hp with hpr
        injection hpr with h1 h2
        subst h1
        subst h2
        apply wgLoop_peers_preserves_sub
        rw [getAL_upsertPeer_self]
        refine ⟨_, rfl, ?_⟩
        cases hgp : getAL p peers with
        | some vals => rw [getAL_upsert_self]; rfl
        | none => simp [getAL]
      · exact ih _ _ _ hs2
    | none =>
      rw [show wgLoop (hd :: tl) (props, ins, peers) =
            wgLoop tl (upsert hd.key (PropValue.str hd.value) props,
              setInsert hd.key ins, peers) by
          simp [wgLoop, hp]]
      rcases List.mem_cons.mp hs with rfl | hs2
      · rw [hps] at hp
        exact Option.noConfusion hp
      · exact ih _ _ _ hs2

theorem wgLoop_peers_provenance (secrets : List Secret) (props : PropMap)
    (ins : List String) (peers : PeersMap) (p : String)
    (h : (getAL p (wgLoop secrets (props, ins, peers)).2.2).isSome = true) :
    (getAL p peers).isSome = true ∨
      ∃ s ∈ secrets, ∃ sub, peerParts s.key = some (p, sub) := by
  induction secrets generalizing props ins peers with
  | nil => exact Or.inl h
  | cons hd tl ih =>
    cases hp : peerParts hd.key with
    | some pr =>
      obtain ⟨pk, sk⟩ := pr
      rw [show wgLoop (hd :: tl) (props, ins, peers) =
            wgLoop tl (props, setInsert hd.key ins, upsertPeer pk sk hd.value peers) by
          simp [wgLoop, hp]] at h
      rcases ih _ _ _ h with hin | ⟨s, hs, sub, hsub⟩
      · by_cases hpk : pk = p
        · subst hpk
          exact Or.inr ⟨hd, List.mem_cons_self _ _, sk, hp⟩
        · rw [getAL_upsertPeer_ne (Ne.symm hpk)] at hin
          exact Or.inl hin
      · exact Or.inr ⟨s, List.mem_cons_of_mem _ hs, sub, hsub⟩
    | none =>
      rw [show wgLoop (hd :: tl) (props, ins, peers) =
            wgLoop tl (upsert hd.key (PropValue.str hd.value) props,
              setInsert hd.key ins, peers) by
          simp [wgLoop, hp]] at h
      rcases ih _ _ _ h with hin | ⟨s, hs, sub, hsub⟩
      · exact Or.inl hin
      · exact Or.inr ⟨s, List.mem_cons_of_mem _ hs, sub, hsub⟩

/-! ## Claim C9 -/

/-- C9: for every setting name other than wireguard the dispatched encoder
is the generic one, which produces one flat map: every looked-up value is
the unmodified string value of an input secret with that key, every input
secret key is present, and the reported inserted-keys set is exactly the
key set of the map; concretely, psk maps to X for the wifi security
setting. -/
theorem C9_generic_encoding :
    (∀ (setting : String) (secrets : List Secret), setting ≠ "wireguard" →
      encode_secrets setting secrets = encode_generic_secrets secrets) ∧
    (∀ (secrets : List Secret) (k : String) (v : PropValue),
      getAL k (encode_generic_secrets secrets).1 = some v →
      ∃ s ∈ secrets, s.key = k ∧ v = PropValue.str s.value) ∧
    (∀ (secrets : List Secret) (s : Secret), s ∈ secrets →
      (getAL s.key (encode_generic_secrets secrets).1).isSome = true) ∧
    (∀ (secrets : List Secret) (k : String),
      k ∈ (encode_generic_secrets secrets).2 ↔
        (getAL k (encode_generic_secrets secrets).1).isSome = true) ∧
    (encode_secrets "802-11-wireless-security" [{ key := "psk", value := "X" }]
      = ([("psk", PropValue.str "X")], ["psk"])) := by
  refine ⟨?_, ?_, ?_, ?_, by decide⟩
  · intro setting secrets h
    unfold encode_secrets
    rw [if_neg (by simp [h])]
  · intro secrets k v h
    rcases foldl_upsert_provenance secrets [] k v h with hmem | hin
    · exact hmem
    · simp [getAL] at hin
  · intro secrets s hs
    exact foldl_upsert_mem secrets [] s hs
  · intro secrets k
    exact (getAL_isSome_iff_mem_keys k _).symm

/-! ## Wireguard encoder unfolding helpers -/

theorem encode_wireguard_unfold (secrets : List Secret) :
    encode_wireguard_secrets secrets =
      ((if (wgLoop secrets ([], [], [])).2.2.isEmpty then (wgLoop secrets ([], [], [])).1
        else upsert "peers"
          (PropValue.peerList ((wgLoop secrets ([], [], [])).2.2.map
            (fun pv => peerPropMap pv.1 pv.2)))
          (wgLoop secrets ([], [], [])).1),
       (wgLoop secrets ([], [], [])).2.1) := rfl

/-- The wireguard loop starting from empty accumulators only ever stores
string values in the top-level props map. -/
theorem wgLoop_props_str (secrets : List Secret) (k : String) (v : PropValue)
    (h : getAL k (wgLoop secrets ([], [], [])).1 = some v) :
    ∃ w, v = PropValue.str w := by
  rcases wgLoop_props_provenance secrets [] [] [] k v h with ⟨s, _, _, _, hv⟩ | hin
  · exact ⟨s.value, hv⟩
  · simp [getAL] at hin

/-- Whenever the final wireguard map binds "peers" to a peer list, that
list is exactly the collected peers map rendered through peerPropMap, and
the collected peers map is non-empty. -/
theorem peers_value_eq (secrets : List Secret) (pl : List (List (String × String)))
    (hpl : getAL "peers" (encode_wireguard_secrets secrets).1
      = some (PropValue.peerList pl)) :
    pl = (wgLoop secrets ([], [], [])).2.2.map (fun pv => peerPropMap pv.1 pv.2) ∧
      (wgLoop secrets ([], [], [])).2.2.isEmpty = false := by
  rw [encode_wireguard_unfold] at hpl
  cases hemp : (wgLoop secrets ([], [], [])).2.2.isEmpty with
  | true =>
    rw [hemp] at hpl
    simp only [if_pos] at hpl
    obtain ⟨w, hw⟩ := wgLoop_props_str secrets "peers" _ hpl
    exact PropValue.noConfusion hw
  | false =>
    rw [hemp] at hpl
    simp only [Bool.false_eq_true, if_false] at hpl
    rw [getAL_upsert_self] at hpl
    injection hpl with hv
    injection hv with hv
    exact ⟨hv.symm, rfl⟩

/-! ## Claim C4 -/

/-- C4: the wireguard encoder reports as inserted keys exactly the
configured keys; it binds the literal top-level key "peers" to a sequence
of peer sub-maps exactly when some secret key has the three-part peer
form; every secret key of the form peers.p.sub lands in a peer sub-map of
that sequence carrying public-key = p and the property sub; every other
key (except a literal "peers" key, which the peer sequence would
overwrite) is inserted verbatim as a string value; and the concrete
two-secret example evaluates to the expected shape. -/
theorem C4_wireguard_encoding :
    (∀ (secrets : List Secret) (k : String),
      k ∈ (encode_wireguard_secrets secrets).2 ↔ ∃ s ∈ secrets, s.key = k) ∧
    (∀ secrets : List Secret,
      (∃ pl, getAL "peers" (encode_wireguard_secrets secrets).1
          = some (PropValue.peerList pl)) ↔
        ∃ s ∈ secrets, isPeerKey s.key = true) ∧
    (∀ (secrets : List Secret) (pl : List (List (String × String))),
      getAL "peers" (encode_wireguard_secrets secrets).1 = some (PropValue.peerList pl) →
      ∀ s ∈ secrets, ∀ p sub, splitKey s.key = ["peers", p, sub] →
        ∃ pm ∈ pl, getAL "public-key" pm = some p ∧ (getAL sub pm).isSome = true) ∧
    (∀ (secrets : List Secret) (s : Secret), s ∈ secrets → isPeerKey s.key = false →
      s.key ≠ "peers" →
      ∃ v, getAL s.key (encode_wireguard_secrets secrets).1 = some (PropValue.str v) ∧
        ({ key := s.key, value := v } : Secret) ∈ secrets) ∧
    (encode_wireguard_secrets
        [{ key := "private-key", value := "P" },
         { key := "peers.PUBKEY.preshared-key", value := "S" }]
      = ([("private-key", PropValue.str "P"),
          ("peers", PropValue.peerList [[("preshared-key", "S"), ("public-key", "PUBKEY")]])],
         ["private-key", "peers.PUBKEY.preshared-key"])) := by
  refine ⟨?_, ?_, ?_, ?_, by decide⟩
  · intro secrets k
    have h := wgLoop_inserted_mem secrets [] [] [] k
    simpa using h
  · intro secrets
    constructor
    · rintro ⟨pl, hpl⟩
      obtain ⟨_, hemp⟩ := peers_value_eq secrets pl hpl
      rcases hpeers : (wgLoop secrets ([], [], [])).2.2 with _ | ⟨⟨p, vals⟩, rest⟩
      · rw [hpeers] at hemp
        simp at hemp
      · have hsome : (getAL p (wgLoop secrets ([], [], [])).2.2).isSome = true := by
          rw [hpeers]
          simp [getAL]
        rcases wgLoop_peers_provenance secrets [] [] [] p hsome with hin | ⟨s, hs, sub, hsub⟩
        · simp [getAL] at hin
        · exact ⟨s, hs, by simp [isPeerKey, hsub]⟩
    · rintro ⟨s, hs, hpk⟩
      obtain ⟨⟨p, sub⟩, hps⟩ := Option.isSome_iff_exists.mp (by simpa [isPeerKey] using hpk)
      obtain ⟨vals, hv, _⟩ := wgLoop_peers_sub secrets [] [] [] s p sub hs hps
      have hemp : (wgLoop secrets ([], [], [])).2.2.isEmpty = false := by
        rcases hpeers : (wgLoop secrets ([], [], [])).2.2 with _ | ⟨hd2, rest⟩
        · rw [hpeers] at hv
          simp [getAL] at hv
        · rfl
      rw [encode_wireguard_unfold]
      rw [hemp]
      simp only [Bool.false_eq_true, if_false]
      exact ⟨_, getAL_upsert_self _ _ _⟩
  · intro secrets pl hpl s hs p sub hsplit
    have hps : peerParts s.key = some (p, sub) := peerParts_eq_some_iff.mpr hsplit
    obtain ⟨hpl_eq, _⟩ := peers_value_eq secrets pl hpl
    obtain ⟨vals, hv, hsub⟩ := wgLoop_peers_sub secrets [] [] [] s p sub hs hps
    have hmem : (p, vals) ∈ (wgLoop secrets ([], [], [])).2.2 := getAL_some_mem hv
    refine ⟨peerPropMap p vals, ?_, ?_, ?_⟩
    · rw [hpl_eq]
      exact List.mem_map.mpr ⟨(p, vals), hmem, rfl⟩
    · exact getAL_upsert_self "public-key" p vals
    · by_cases hk : sub = "public-key"
      · subst hk
        rw [peerPropMap, getAL_upsert_self]
        rfl
      · rw [peerPropMap, getAL_upsert_ne (Ne.symm hk)]
        exact hsub
  · intro secrets s hs hnp hne
    have hpn : peerParts s.key = none := by
      cases hpp : peerParts s.key with
      | none => rfl
      | some pr =>
        rw [isPeerKey, hpp] at hnp
        simp at hnp
    have hsome := wgLoop_props_mem secrets [] [] [] s hs hpn
    obtain ⟨v, hv⟩ := Option.isSome_iff_exists.mp hsome
    rcases wgLoop_props_provenance secrets [] [] [] s.key v hv with
      ⟨s2, hs2, hk2, _, hv2⟩ | hin
    · subst hv2
      have hs2eq : ({ key := s.key, value := s2.value } : Secret) = s2 := by
        cases s2
        simp_all
      refine ⟨s2.value, ?_, hs2eq ▸ hs2⟩
      rw [encode_wireguard_unfold]
      cases hemp : (wgLoop secrets ([], [], [])).2.2.isEmpty with
      | true => simpa using hv
      | false =>
        simp only [Bool.false_eq_true, if_false]
        rw [getAL_upsert_ne (Ne.symm hne)]
        exact hv
    · simp [getAL] at hin

/-! ## Claim C10 -/

/-- C10: in the wireguard encoder output, every peer sub-map of the peers
sequence carries a public-key property equal to the pubkey segment of the
configured keys that produced that peer — including when a
peers.p.public-key secret was explicitly configured with a different
value, which the injected value overwrites, as the concrete example
shows. -/
theorem C10_public_key_injection :
    (∀ (secrets : List Secret) (pl : List (List (String × String))),
      getAL "peers" (encode_wireguard_secrets secrets).1 = some (PropValue.peerList pl) →
      ∀ pm ∈ pl, ∃ p, getAL "public-key" pm = some p ∧
        ∃ s ∈ secrets, ∃ sub, splitKey s.key = ["peers", p, sub]) ∧
    (encode_wireguard_secrets [{ key := "peers.A.public-key", value := "WRONG" }]
      = ([("peers", PropValue.peerList [[("public-key", "A")]])],
         ["peers.A.public-key"])) := by
  refine ⟨?_, by decide⟩
  intro secrets pl hpl pm hpm
  obtain ⟨hpl_eq, _⟩ := peers_value_eq secrets pl hpl
  rw [hpl_eq] at hpm
  obtain ⟨⟨p, vals⟩, hmem, hpm_eq⟩ := List.mem_map.mp hpm
  have hsome : (getAL p (wgLoop secrets ([], [], [])).2.2).isSome = true := by
    rw [getAL_isSome_iff_mem_keys]
    exact List.mem_map.mpr ⟨(p, vals), hmem, rfl⟩
  rcases wgLoop_peers_provenance secrets [] [] [] p hsome with hin | ⟨s, hs, sub, hsub⟩
  · simp [getAL] at hin
  · refine ⟨p, ?_, s, hs, sub, peerParts_eq_some_iff.mp hsub⟩
    rw [← hpm_eq]
    exact getAL_upsert_self "public-key" p vals

end NmFileSecretAgent
